import Mathlib

/-!
Verification of the BizGenius business-plan core: the LLM-output section
parser (`parseBusinessPlanSections`), its text-normalization helpers
(`cleanContent`, `formatSectionContent`), the prompt builder
(`createBusinessPlanPrompt`) and the flat-text export
(`formatBusinessPlanForExport`).  Strings are modelled as `List Char`; the
JavaScript global-regex replacements are modelled by structurally recursive
scanners that reproduce the engine's left-to-right, leftmost-match,
continue-after-match behaviour (with `^` in multiline mode deciding
line-start from the character preceding the scan position).
-/

namespace BizGenius

/-- ASCII fragment of the JS regex class `\s` (and of the `trim` set). -/
def isWs (c : Char) : Bool :=
  c == ' ' || c == '\t' || c == '\n' || c == '\r' || c == '\x0b' || c == '\x0c'

/-- The two list-marker characters recognized by `/^\s*[-•]\s/`. -/
def isBulletChar (c : Char) : Bool := c == '-' || c == '•'

/-- ASCII lower-casing, the fragment of `String.prototype.toLowerCase`
exercised by the section catalog. -/
def asciiLower (c : Char) : Char :=
  if 'A' ≤ c ∧ c ≤ 'Z' then Char.ofNat (c.toNat + 32) else c

/-- Lower-case a whole string. -/
def lowerStr (l : List Char) : List Char := l.map asciiLower

/-- `String.prototype.trim`, left half. -/
def jsTrimLeft (l : List Char) : List Char := l.dropWhile (fun c => isWs c)

/-- `String.prototype.trim`: drop whitespace at both ends. -/
def jsTrim (l : List Char) : List Char :=
  ((jsTrimLeft l).reverse.dropWhile (fun c => isWs c)).reverse

/-- `.replace(/\*\*/g, '')`: delete non-overlapping `**` pairs, left to right. -/
def remDS : List Char → List Char
  | [] => []
  | [c] => [c]
  | c :: d :: t => if c = '*' ∧ d = '*' then remDS t else c :: remDS (d :: t)

/-- `.replace(/\*/g, '')`: delete every remaining asterisk. -/
def remStar (l : List Char) : List Char := l.filter (fun c => !(c == '*'))

/-- Scanner for `.replace(/#{1,6}\s/g, '')`.  The accumulator `p ≤ 6` holds
the pending run of `#` characters that could still begin a match; a seventh
`#` flushes the oldest pending one, a whitespace character consumes the
pending run (the match), any other character flushes the run verbatim. -/
def remHashGo : Nat → List Char → List Char
  | p, [] => List.replicate p '#'
  | p, c :: t =>
    if c == '#' then
      if p == 6 then '#' :: remHashGo 6 t else remHashGo (p + 1) t
    else if isWs c then
      if p == 0 then c :: remHashGo 0 t else remHashGo 0 t
    else
      List.replicate p '#' ++ c :: remHashGo 0 t

/-- `.replace(/#{1,6}\s/g, '')`. -/
def remHash (l : List Char) : List Char := remHashGo 0 l

/-- State of the scanner for `.replace(/^\s*[-•]\s/gm, '• ')`: either plain
scanning (with the line-start flag), or inside a candidate whitespace run
begun at a line start, or after that run plus a bullet character, waiting
for the final `\s`. -/
inductive BulletState where
  | scan (lineStart : Bool)
  | run (r : List Char)
  | cand (r : List Char) (b : Char)

/-- Scanner for `.replace(/^\s*[-•]\s/gm, '• ')`.  A match (line start,
whitespace run, bullet, one whitespace) is replaced by `• `; a failed
candidate is emitted verbatim, which is faithful because no position inside
a failed candidate can start a match of its own. -/
def bulletGo : BulletState → List Char → List Char
  | .scan _, [] => []
  | .run r, [] => r
  | .cand r b, [] => r ++ [b]
  | .scan s, c :: t =>
    if s && isWs c then bulletGo (.run [c]) t
    else if s && isBulletChar c then bulletGo (.cand [] c) t
    else c :: bulletGo (.scan (c == '\n')) t
  | .run r, c :: t =>
    if isWs c then bulletGo (.run (r ++ [c])) t
    else if isBulletChar c then bulletGo (.cand r c) t
    else r ++ c :: bulletGo (.scan (c == '\n')) t
  | .cand r b, c :: t =>
    if isWs c then '•' :: ' ' :: bulletGo (.scan (c == '\n')) t
    else r ++ b :: c :: bulletGo (.scan (c == '\n')) t

/-- `.replace(/^\s*[-•]\s/gm, '• ')`. -/
def bulletNorm (l : List Char) : List Char := bulletGo (.scan true) l

/-- What a pending run of `p` newlines flushes to under `/\n{3,}/ → \n\n`. -/
def nlFlush (p : Nat) : List Char := List.replicate (if p ≥ 3 then 2 else p) '\n'

/-- Scanner for `.replace(/\n{3,}/g, '\n\n')`; `p` counts the pending
newline run, capped at 3 since all longer runs behave alike. -/
def collapseGo : Nat → List Char → List Char
  | p, [] => nlFlush p
  | p, c :: t =>
    if c == '\n' then collapseGo (min (p + 1) 3) t
    else nlFlush p ++ c :: collapseGo 0 t

/-- `.replace(/\n{3,}/g, '\n\n')`. -/
def collapseNL (l : List Char) : List Char := collapseGo 0 l

/-- Scanner for `.replace(/^\s+/gm, '')`: drop every whitespace character
all of whose predecessors back to the last newline are whitespace. -/
def stripGo : Bool → List Char → List Char
  | _, [] => []
  | s, c :: t => if s && isWs c then stripGo true t else c :: stripGo (c == '\n') t

/-- `.replace(/^\s+/gm, '')`. -/
def stripLS (l : List Char) : List Char := stripGo true l

/-- The `cleanContent` pipeline at the top of `parseBusinessPlanSections`:
strip `**`, strip `*`, strip `#{1,6}\s`, canonicalize bullets, collapse 3+
newlines to 2, trim. -/
def cleanContent (l : List Char) : List Char :=
  jsTrim (collapseNL (bulletNorm (remHash (remStar (remDS l)))))

/-- `formatSectionContent`: strip `**`, strip `*`, canonicalize bullets,
collapse 3+ newlines to 2, strip line-leading whitespace, trim. -/
def formatSectionContent (l : List Char) : List Char :=
  jsTrim (stripLS (collapseNL (bulletNorm (remStar (remDS l)))))

/-- The composite normalization the parser applies to headerless input:
`formatSectionContent(cleanContent(text))` (line 235 of the source), which
realizes every step of the spec's normalization pipeline, header-marker
stripping included. -/
def normalizeText (l : List Char) : List Char :=
  formatSectionContent (cleanContent l)

/-- The fixed ordered catalog of the ten expected section titles. -/
def sectionHeaders : List (List Char) :=
  ["Executive Summary".toList,
   "Company Description".toList,
   "Market Analysis".toList,
   "Organization & Management".toList,
   "Products or Services".toList,
   "Marketing & Sales Strategy".toList,
   "Financial Projections".toList,
   "Risk Analysis".toList,
   "Implementation Timeline".toList,
   "Appendices".toList]

/-- `String.prototype.includes`: `containsSub hay needle` is true when
`needle` occurs contiguously inside `hay`. -/
def containsSub : List Char → List Char → Bool
  | [], n => n.isEmpty
  | c :: t, n => n.isPrefixOf (c :: t) || containsSub t n

/-- `/^\d+\./` continued after the first digit: more digits, then a dot. -/
def numDotTail : List Char → Bool
  | [] => false
  | c :: t => if c.isDigit then numDotTail t else c == '.'

/-- `trimmedLine.match(/^\d+\./)`: one or more digits then a period. -/
def numDot : List Char → Bool
  | [] => false
  | c :: t => c.isDigit && numDotTail t

/-- The per-title header test applied to a trimmed line: the lowercased
line contains the lowercased title, and the line either starts with an
ordinal marker or equals the title case-insensitively. -/
def headerPred (tl : List Char) (h : List Char) : Bool :=
  containsSub (lowerStr tl) (lowerStr h) && (numDot tl || lowerStr tl == lowerStr h)

/-- `sectionHeaders.find(header => ...)` on a trimmed line. -/
def matchedHeader (tl : List Char) : Option (List Char) :=
  sectionHeaders.find? (headerPred tl)

/-- A parsed section: title plus normalized content. -/
structure BusinessPlanSection where
  title : List Char
  content : List Char
deriving DecidableEq

/-- The conditional push of the accumulated section (`if (currentSection &&
currentContent.trim()) sections.push({...})`). -/
def pushIf (sec acc : List Char) : List BusinessPlanSection :=
  if !sec.isEmpty && !(jsTrim acc).isEmpty then
    [⟨sec, formatSectionContent (jsTrim acc)⟩]
  else []

/-- The line loop of `parseBusinessPlanSections` together with the final
push: a recognized header line flushes the open accumulator and opens a new
one, any other line is appended (with its newline) to the open accumulator. -/
def scanLines : List (List Char) → List Char → List Char → List BusinessPlanSection
  | [], sec, acc => pushIf sec acc
  | l :: ls, sec, acc =>
    match matchedHeader (jsTrim l) with
    | some h => pushIf sec acc ++ scanLines ls h []
    | none => scanLines ls sec (acc ++ l ++ ['\n'])

/-- `parseBusinessPlanSections`: normalize, scan line by line, and fall
back to a single catch-all section when nothing was emitted. -/
def parseBusinessPlanSections (content : List Char) : List BusinessPlanSection :=
  if (scanLines ((cleanContent content).splitOn '\n') [] []).isEmpty then
    [⟨"Business Plan".toList, formatSectionContent (cleanContent content)⟩]
  else scanLines ((cleanContent content).splitOn '\n') [] []

/-- The structured business profile handed to the prompt builder. -/
structure BusinessPlanInput where
  businessName : List Char
  industry : List Char
  businessType : List Char
  location : List Char
  targetAudience : List Char
  uniqueValue : List Char
  revenueModel : List Char
  goals : List Char

/-- `createBusinessPlanPrompt`: the instruction template with every profile
field interpolated by name. -/
def createBusinessPlanPrompt (input : BusinessPlanInput) : List Char :=
  "Create a comprehensive, professional business plan for the following business:\n\n**Business Details:**\n- ".toList ++
  ("Business Name: ".toList ++ input.businessName) ++
  ("\n- ".toList ++ ("Industry: ".toList ++ input.industry)) ++
  ("\n- ".toList ++ ("Business Type: ".toList ++ input.businessType)) ++
  ("\n- ".toList ++ ("Location: ".toList ++ input.location)) ++
  ("\n- ".toList ++ ("Target Audience: ".toList ++ input.targetAudience)) ++
  ("\n- ".toList ++ ("Unique Value Proposition: ".toList ++ input.uniqueValue)) ++
  ("\n- ".toList ++ ("Revenue Model: ".toList ++ input.revenueModel)) ++
  ("\n- ".toList ++ ("Goals: ".toList ++ input.goals)) ++
  "\n\nPlease create a detailed, investor-ready business plan that includes:\n- Market research specific to ".toList ++
  input.industry ++ " in ".toList ++ input.location ++
  "\n- Competitive analysis and positioning\n- Realistic financial projections for 3-5 years\n- Marketing strategies tailored to ".toList ++
  input.targetAudience ++
  "\n- Implementation roadmap aligned with the goal: ".toList ++ input.goals ++
  "\n- Risk assessment and mitigation strategies\n- Industry-specific insights and trends\n\nThe plan should be professional, comprehensive, and ready for presentation to investors, lenders, or stakeholders. Include specific data, metrics, and actionable strategies where possible.".toList

/-- Document status (`'draft' | 'complete'`). -/
inductive PlanStatus where
  | draft
  | complete
deriving DecidableEq

/-- A generated document; `createdAtStr` stands for the rendering
`createdAt.toLocaleDateString()` used by the export. -/
structure GeneratedBusinessPlan where
  id : List Char
  title : List Char
  industry : List Char
  createdAtStr : List Char
  sections : List BusinessPlanSection
  status : PlanStatus

/-- The per-section part of the flat-text export: title, a dash underline
of the title's length, a blank line, the content, a blank line. -/
def exportSections : List BusinessPlanSection → List Char
  | [] => []
  | s :: rest =>
    s.title ++ '\n' :: (List.replicate s.title.length '-' ++ "\n\n".toList ++
      s.content ++ "\n\n".toList ++ exportSections rest)

/-- `formatBusinessPlanForExport`: title line, industry line, creation
date, a 50-character `=` rule, then every section. -/
def formatBusinessPlanForExport (p : GeneratedBusinessPlan) : List Char :=
  p.title ++ '\n' :: ("Industry: ".toList ++ p.industry ++ '\n' ::
    ("Created: ".toList ++ p.createdAtStr ++ "\n\n".toList ++
      List.replicate 50 '=' ++ "\n\n".toList ++ exportSections p.sections))

/-! ### Scan-shape predicates

The idempotence argument for `formatSectionContent` characterizes its image
by line-start properties, each phrased as a left-to-right scan carrying the
same line-start flag the replacement scanners carry. -/

/-- The line at this scan position begins with no whitespace: the flag is
true at position 0 and right after every newline. -/
def goodLS : Bool → List Char → Prop
  | _, [] => True
  | s, c :: t => (s = true → isWs c = false) ∧ goodLS (c == '\n') t

/-- `nwc c t`: if the character following `c` is whitespace, then `c`/that
character are exactly the canonical bullet pair `• `. -/
def nwc (c : Char) : List Char → Prop
  | [] => True
  | w :: _ => isWs w = true → c = '•' ∧ w = ' '

/-- Bullet canonicity along the scan: the flag tracks whether every
character since the last newline is whitespace (an "extended line start");
an extended-line-start bullet followed by whitespace must be `• `. -/
def eGood : Bool → List Char → Prop
  | _, [] => True
  | e, c :: t =>
    (e = true → isBulletChar c = true → nwc c t) ∧
    eGood (c == '\n' || (e && isWs c)) t

/-- `okRuns p l`: prepending `p` newlines to `l` yields no run of three or
more newlines. -/
def okRuns : Nat → List Char → Prop
  | p, [] => p ≤ 2
  | p, c :: t => if c = '\n' then okRuns (p + 1) t else (p ≤ 2 ∧ okRuns 0 t)

/-- A flat rendering of a line list, each line with its trailing newline:
the shape of the parser's content accumulator. -/
def flatLines : List (List Char) → List Char
  | [] => []
  | l :: ls => l ++ '\n' :: flatLines ls

/-- One recognized section of the scan: a line the parser recognizes as a
header for `title`, followed by the block's content lines. -/
structure Block where
  headerLine : List Char
  title : List Char
  contentLines : List (List Char)
deriving DecidableEq

/-- The lines a block contributes to the parser's input. -/
def blockLines (b : Block) : List (List Char) := b.headerLine :: b.contentLines

/-- The line sequence of a list of blocks. -/
def blocksLines : List Block → List (List Char)
  | [] => []
  | b :: bs => blockLines b ++ blocksLines bs

/-- A well-formed block: its header line is recognized with its title,
none of its content lines is recognized as a header, and its accumulated
content survives normalization non-empty. -/
def blockWF (b : Block) : Prop :=
  matchedHeader (jsTrim b.headerLine) = some b.title ∧
  (∀ l ∈ b.contentLines, matchedHeader (jsTrim l) = none) ∧
  formatSectionContent (jsTrim (flatLines b.contentLines)) ≠ []

/-- The section the parser emits for a well-formed block. -/
def blockSection (b : Block) : BusinessPlanSection :=
  ⟨b.title, formatSectionContent (jsTrim (flatLines b.contentLines))⟩

instance blockWF_decidable (b : Block) : Decidable (blockWF b) := by
  unfold blockWF
  infer_instance

/-- The characters a bullet-scanner state may still emit. -/
def stChars : BulletState → List Char
  | .scan _ => []
  | .run r => r
  | .cand r b => r ++ [b]

/-- The extended-line-start flag a bullet-scanner state corresponds to. -/
def stFlagB : BulletState → Bool
  | .scan s => s
  | .run _ => true
  | .cand _ _ => true

/-- The reachable-state invariant of the bullet scanner: accumulated runs
are whitespace and the candidate character is a bullet. -/
def stInvB : BulletState → Prop
  | .scan _ => True
  | .run r => ∀ x ∈ r, isWs x = true
  | .cand r b => (∀ x ∈ r, isWs x = true) ∧ isBulletChar b = true

/-! ## Theorems -/

theorem fsc_nil : formatSectionContent [] = [] := rfl

/-- C1: a line is recognized as a new section header exactly when its
lowercased trimmed text contains one of the ten lowercased catalog titles
as a substring and, independently, the trimmed line starts with one or
more digits followed by a period or is case-insensitively equal to that
catalog title; a line mentioning a title without either shape is not a
header. -/
theorem header_recognized_iff (line : List Char) :
    (matchedHeader (jsTrim line)).isSome = true ↔
      ∃ h ∈ sectionHeaders,
        containsSub (lowerStr (jsTrim line)) (lowerStr h) = true ∧
          (numDot (jsTrim line) = true ∨ lowerStr (jsTrim line) = lowerStr h) := by
  simp [matchedHeader, List.find?_isSome, headerPred]

/-- C7: the parser is total: every input yields at least one section. -/
theorem parser_total_nonempty (content : List Char) :
    parseBusinessPlanSections content ≠ [] := by
  unfold parseBusinessPlanSections
  split
  · simp
  · next h => simpa [List.isEmpty_iff] using h

/-- C9: the concrete two-header scenario parses to exactly the two
specified sections. -/
theorem concrete_two_section_scenario :
    parseBusinessPlanSections
        "1. Executive Summary\nWe sell widgets.\n\n2. Market Analysis\nGrowing market.\n".toList =
      [⟨"Executive Summary".toList, "We sell widgets.".toList⟩,
       ⟨"Market Analysis".toList, "Growing market.".toList⟩] := by
  decide

theorem scanLines_no_header (lines : List (List Char)) (acc : List Char)
    (h : ∀ l ∈ lines, matchedHeader (jsTrim l) = none) :
    scanLines lines [] acc = [] := by
  induction lines generalizing acc with
  | nil => simp [scanLines, pushIf]
  | cons l ls ih =>
    have hl := h l (by simp)
    simp only [scanLines, hl]
    exact ih _ (fun x hx => h x (by simp [hx]))

/-- C2: when no line of the normalized input is recognized as a header,
the parser returns exactly one fallback section titled `Business Plan`
whose content is the (re-normalized) normalized input text. -/
theorem no_header_single_fallback (s : List Char)
    (h : ∀ l ∈ (cleanContent s).splitOn '\n', matchedHeader (jsTrim l) = none) :
    parseBusinessPlanSections s =
      [⟨"Business Plan".toList, formatSectionContent (cleanContent s)⟩] := by
  unfold parseBusinessPlanSections
  rw [scanLines_no_header _ _ h]
  rfl

/-- Witness for C2 at the spec's concrete headerless input, which parses
to a single fallback section holding exactly that (trimmed) text. -/
theorem no_header_single_fallback_witness :
    (∀ l ∈ (cleanContent "Some unrelated musings with no headers at all.".toList).splitOn '\n',
        matchedHeader (jsTrim l) = none) ∧
    parseBusinessPlanSections "Some unrelated musings with no headers at all.".toList =
      [⟨"Business Plan".toList,
        "Some unrelated musings with no headers at all.".toList⟩] := by
  refine ⟨by decide, ?_⟩
  rw [no_header_single_fallback _ (by decide)]
  decide

theorem isPrefixOf_append_self (l r : List Char) : l.isPrefixOf (l ++ r) = true := by
  rw [List.isPrefixOf_iff_prefix]
  exact List.prefix_append l r

theorem containsSub_nil (h : List Char) : containsSub h [] = true := by
  cases h <;> simp [containsSub]

theorem cs_here (n post : List Char) : containsSub (n ++ post) n = true := by
  cases n with
  | nil => simpa using containsSub_nil post
  | cons m mt =>
    show containsSub (m :: (mt ++ post)) (m :: mt) = true
    simp [containsSub, isPrefixOf_append_self mt post]

theorem cs_append_left (pre : List Char) {h n : List Char}
    (H : containsSub h n = true) : containsSub (pre ++ h) n = true := by
  induction pre with
  | nil => simpa using H
  | cons p pt ih =>
    show containsSub (p :: (pt ++ h)) n = true
    simp [containsSub, ih]

theorem isPrefixOf_self (l : List Char) : l.isPrefixOf l = true := by
  rw [List.isPrefixOf_iff_prefix]

theorem cs_self (n : List Char) : containsSub n n = true := by
  cases n with
  | nil => simp [containsSub]
  | cons c t => simp [containsSub, isPrefixOf_self]

theorem isPrefixOf_append_of {l m : List Char} (r : List Char)
    (H : l.isPrefixOf m = true) : l.isPrefixOf (m ++ r) = true := by
  rw [List.isPrefixOf_iff_prefix] at H ⊢
  exact H.trans (List.prefix_append m r)

theorem cs_append_right {pre n : List Char} (h : List Char)
    (H : containsSub pre n = true) : containsSub (pre ++ h) n = true := by
  induction pre with
  | nil =>
    have hn : n = [] := by
      cases n with
      | nil => rfl
      | cons c t => simp [containsSub] at H
    subst hn
    exact containsSub_nil h
  | cons p pt ih =>
    simp only [List.cons_append, containsSub, Bool.or_eq_true] at H ⊢
    rcases H with H | H
    · exact Or.inl (isPrefixOf_append_of h H)
    · exact Or.inr (ih H)

set_option maxRecDepth 4000 in
/-- C8: for every profile, the prompt contains each field's literal value
as a substring, embedded by its field name. -/
theorem prompt_embeds_every_field (input : BusinessPlanInput) :
    containsSub (createBusinessPlanPrompt input)
        ("Business Name: ".toList ++ input.businessName) = true ∧
    containsSub (createBusinessPlanPrompt input)
        ("Industry: ".toList ++ input.industry) = true ∧
    containsSub (createBusinessPlanPrompt input)
        ("Business Type: ".toList ++ input.businessType) = true ∧
    containsSub (createBusinessPlanPrompt input)
        ("Location: ".toList ++ input.location) = true ∧
    containsSub (createBusinessPlanPrompt input)
        ("Target Audience: ".toList ++ input.targetAudience) = true ∧
    containsSub (createBusinessPlanPrompt input)
        ("Unique Value Proposition: ".toList ++ input.uniqueValue) = true ∧
    containsSub (createBusinessPlanPrompt input)
        ("Revenue Model: ".toList ++ input.revenueModel) = true ∧
    containsSub (createBusinessPlanPrompt input)
        ("Goals: ".toList ++ input.goals) = true := by
  unfold createBusinessPlanPrompt
  refine ⟨?_, ?_, ?_, ?_, ?_, ?_, ?_, ?_⟩
  · apply cs_append_right
    apply cs_append_right
    apply cs_append_right
    apply cs_append_right
    apply cs_append_right
    apply cs_append_right
    apply cs_append_right
    apply cs_append_right
    apply cs_append_right
    apply cs_append_right
    apply cs_append_right
    apply cs_append_right
    apply cs_append_right
    apply cs_append_right
    apply cs_append_right
    apply cs_append_right
    apply cs_append_left
    exact cs_self _
  · apply cs_append_right
    apply cs_append_right
    apply cs_append_right
    apply cs_append_right
    apply cs_append_right
    apply cs_append_right
    apply cs_append_right
    apply cs_append_right
    apply cs_append_right
    apply cs_append_right
    apply cs_append_right
    apply cs_append_right
    apply cs_append_right
    apply cs_append_right
    apply cs_append_right
    apply cs_append_left
    apply cs_append_left
    exact cs_self _
  · apply cs_append_right
    apply cs_append_right
    apply cs_append_right
    apply cs_append_right
    apply cs_append_right
    apply cs_append_right
    apply cs_append_right
    apply cs_append_right
    apply cs_append_right
    apply cs_append_right
    apply cs_append_right
    apply cs_append_right
    apply cs_append_right
    apply cs_append_right
    apply cs_append_left
    apply cs_append_left
    exact cs_self _
  · apply cs_append_right
    apply cs_append_right
    apply cs_append_right
    apply cs_append_right
    apply cs_append_right
    apply cs_append_right
    apply cs_append_right
    apply cs_append_right
    apply cs_append_right
    apply cs_append_right
    apply cs_append_right
    apply cs_append_right
    apply cs_append_right
    apply cs_append_left
    apply cs_append_left
    exact cs_self _
  · apply cs_append_right
    apply cs_append_right
    apply cs_append_right
    apply cs_append_right
    apply cs_append_right
    apply cs_append_right
    apply cs_append_right
    apply cs_append_right
    apply cs_append_right
    apply cs_append_right
    apply cs_append_right
    apply cs_append_right
    apply cs_append_left
    apply cs_append_left
    exact cs_self _
  · apply cs_append_right
    apply cs_append_right
    apply cs_append_right
    apply cs_append_right
    apply cs_append_right
    apply cs_append_right
    apply cs_append_right
    apply cs_append_right
    apply cs_append_right
    apply cs_append_right
    apply cs_append_right
    apply cs_append_left
    apply cs_append_left
    exact cs_self _
  · apply cs_append_right
    apply cs_append_right
    apply cs_append_right
    apply cs_append_right
    apply cs_append_right
    apply cs_append_right
    apply cs_append_right
    apply cs_append_right
    apply cs_append_right
    apply cs_append_right
    apply cs_append_left
    apply cs_append_left
    exact cs_self _
  · apply cs_append_right
    apply cs_append_right
    apply cs_append_right
    apply cs_append_right
    apply cs_append_right
    apply cs_append_right
    apply cs_append_right
    apply cs_append_right
    apply cs_append_right
    apply cs_append_left
    apply cs_append_left
    exact cs_self _

theorem scanLines_append_content (cls rest : List (List Char)) (sec acc : List Char)
    (h : ∀ l ∈ cls, matchedHeader (jsTrim l) = none) :
    scanLines (cls ++ rest) sec acc = scanLines rest sec (acc ++ flatLines cls) := by
  induction cls generalizing acc with
  | nil => simp [flatLines]
  | cons l ls ih =>
    have hl := h l (by simp)
    simp only [List.cons_append, scanLines, hl, List.append_eq]
    rw [ih _ (fun x hx => h x (by simp [hx]))]
    simp [flatLines, List.append_assoc]

theorem scanLines_empty_sec (lines : List (List Char)) (acc acc' : List Char) :
    scanLines lines [] acc = scanLines lines [] acc' := by
  induction lines generalizing acc acc' with
  | nil => simp [scanLines, pushIf]
  | cons l ls ih =>
    cases hm : matchedHeader (jsTrim l) with
    | some h => simp [scanLines, hm, pushIf]
    | none =>
      simp only [scanLines, hm]
      exact ih _ _

theorem matchedHeader_mem {tl h : List Char} (H : matchedHeader tl = some h) :
    h ∈ sectionHeaders :=
  List.mem_of_find?_eq_some H

theorem sectionHeaders_ne_nil : ∀ h ∈ sectionHeaders, h ≠ [] := by decide

theorem blockWF_trim_ne {b : Block} (hb : blockWF b) :
    jsTrim (flatLines b.contentLines) ≠ [] := by
  intro hc
  exact hb.2.2 (by rw [hc]; rfl)

theorem pushIf_of_ne {sec acc : List Char} (hs : sec ≠ []) (ha : jsTrim acc ≠ []) :
    pushIf sec acc = [⟨sec, formatSectionContent (jsTrim acc)⟩] := by
  simp [pushIf, List.isEmpty_iff, hs, ha]

theorem scanLines_blocks (bs : List Block) (hwf : ∀ b ∈ bs, blockWF b) (sec acc : List Char)
    (hs : sec ≠ []) :
    scanLines (blocksLines bs) sec acc = pushIf sec acc ++ bs.map blockSection := by
  induction bs generalizing sec acc with
  | nil => simp [blocksLines, scanLines]
  | cons b bs' ih =>
    have hb := hwf b (by simp)
    have htne : b.title ≠ [] := sectionHeaders_ne_nil _ (matchedHeader_mem hb.1)
    simp only [blocksLines, blockLines, List.cons_append, scanLines, hb.1, List.append_eq]
    rw [scanLines_append_content _ _ _ _ hb.2.1, List.nil_append,
      ih (fun x hx => hwf x (by simp [hx])) _ _ htne,
      pushIf_of_ne htne (blockWF_trim_ne hb)]
    simp [blockSection]

theorem scanLines_blocks_start (bs : List Block) (hwf : ∀ b ∈ bs, blockWF b)
    (acc : List Char) :
    scanLines (blocksLines bs) [] acc = bs.map blockSection := by
  cases bs with
  | nil => simp [blocksLines, scanLines, pushIf]
  | cons b bs' =>
    have hb := hwf b (by simp)
    have htne : b.title ≠ [] := sectionHeaders_ne_nil _ (matchedHeader_mem hb.1)
    simp only [blocksLines, blockLines, List.cons_append, scanLines, hb.1, List.append_eq]
    rw [scanLines_append_content _ _ _ _ hb.2.1, List.nil_append,
      scanLines_blocks bs' (fun x hx => hwf x (by simp [hx])) _ _ htne,
      pushIf_of_ne htne (blockWF_trim_ne hb)]
    simp [pushIf, blockSection]

theorem parse_blocks {s : List Char} {bs : List Block}
    (hsplit : (cleanContent s).splitOn '\n' = blocksLines bs)
    (hwf : ∀ b ∈ bs, blockWF b) (hne : bs ≠ []) :
    parseBusinessPlanSections s = bs.map blockSection := by
  unfold parseBusinessPlanSections
  rw [hsplit, scanLines_blocks_start bs hwf]
  have : (bs.map blockSection).isEmpty = false := by
    simp [List.isEmpty_iff, hne]
  rw [this]
  simp

theorem catalog_lines_self_match : ∀ h ∈ sectionHeaders, matchedHeader (jsTrim h) = some h := by
  decide

theorem titles_of_standalone (bs : List Block) (hs : List (List Char))
    (hwf : ∀ b ∈ bs, blockWF b)
    (hstand : bs.map Block.headerLine = hs)
    (hself : ∀ h ∈ hs, matchedHeader (jsTrim h) = some h) :
    bs.map Block.title = hs := by
  induction bs generalizing hs with
  | nil => simpa using hstand.symm ▸ rfl
  | cons b bs' ih =>
    cases hs with
    | nil => simp at hstand
    | cons h hs' =>
      simp only [List.map_cons, List.cons.injEq] at hstand ⊢
      have hb := hwf b (by simp)
      have hbt : b.title = h := by
        have h1 := hb.1
        rw [hstand.1] at h1
        have h2 := hself h (by simp)
        rw [h1] at h2
        exact (Option.some.injEq _ _ ▸ h2)
      exact ⟨hbt, ih hs' (fun x hx => hwf x (by simp [hx])) hstand.2
        (fun x hx => hself x (by simp [hx]))⟩

/-- C3: an input whose normalized lines consist of the ten catalog titles,
in catalog order, each standing alone on its own line and each followed by
content lines that are not header-recognized and normalize to non-empty
text, parses to exactly ten sections carrying the ten catalog titles in
that order, each with non-empty content. -/
theorem ten_catalog_headers_ten_sections (s : List Char) (bs : List Block)
    (hsplit : (cleanContent s).splitOn '\n' = blocksLines bs)
    (hwf : ∀ b ∈ bs, blockWF b)
    (hstand : bs.map Block.headerLine = sectionHeaders) :
    (parseBusinessPlanSections s).map BusinessPlanSection.title = sectionHeaders ∧
      (parseBusinessPlanSections s).length = 10 ∧
      ∀ sec ∈ parseBusinessPlanSections s, sec.content ≠ [] := by
  have htitles : bs.map Block.title = sectionHeaders :=
    titles_of_standalone bs sectionHeaders hwf hstand catalog_lines_self_match
  have hne : bs ≠ [] := by
    intro hc
    rw [hc] at htitles
    exact absurd htitles.symm (by decide)
  have hp := parse_blocks hsplit hwf hne
  refine ⟨?_, ?_, ?_⟩
  · rw [hp, List.map_map]
    have : (BusinessPlanSection.title ∘ blockSection) = Block.title := by
      funext b
      rfl
    rw [this, htitles]
  · rw [hp, List.length_map]
    have := congrArg List.length htitles
    rw [List.length_map] at this
    rw [this]
    rfl
  · intro sec hsec
    rw [hp] at hsec
    rcases List.mem_map.mp hsec with ⟨b, hbmem, rfl⟩
    exact (hwf b hbmem).2.2

/-- Witness for C3: the ten catalog titles as standalone lines, each
followed by one body line. -/
theorem ten_catalog_headers_ten_sections_witness :
    ((parseBusinessPlanSections "Executive Summary\nBody 0.\nCompany Description\nBody 1.\nMarket Analysis\nBody 2.\nOrganization & Management\nBody 3.\nProducts or Services\nBody 4.\nMarketing & Sales Strategy\nBody 5.\nFinancial Projections\nBody 6.\nRisk Analysis\nBody 7.\nImplementation Timeline\nBody 8.\nAppendices\nBody 9.\n".toList).map
        BusinessPlanSection.title = sectionHeaders) ∧
    (parseBusinessPlanSections "Executive Summary\nBody 0.\nCompany Description\nBody 1.\nMarket Analysis\nBody 2.\nOrganization & Management\nBody 3.\nProducts or Services\nBody 4.\nMarketing & Sales Strategy\nBody 5.\nFinancial Projections\nBody 6.\nRisk Analysis\nBody 7.\nImplementation Timeline\nBody 8.\nAppendices\nBody 9.\n".toList).length = 10 := by
  have h := ten_catalog_headers_ten_sections
    "Executive Summary\nBody 0.\nCompany Description\nBody 1.\nMarket Analysis\nBody 2.\nOrganization & Management\nBody 3.\nProducts or Services\nBody 4.\nMarketing & Sales Strategy\nBody 5.\nFinancial Projections\nBody 6.\nRisk Analysis\nBody 7.\nImplementation Timeline\nBody 8.\nAppendices\nBody 9.\n".toList
    [⟨"Executive Summary".toList, "Executive Summary".toList, ["Body 0.".toList]⟩,
     ⟨"Company Description".toList, "Company Description".toList, ["Body 1.".toList]⟩,
     ⟨"Market Analysis".toList, "Market Analysis".toList, ["Body 2.".toList]⟩,
     ⟨"Organization & Management".toList, "Organization & Management".toList, ["Body 3.".toList]⟩,
     ⟨"Products or Services".toList, "Products or Services".toList, ["Body 4.".toList]⟩,
     ⟨"Marketing & Sales Strategy".toList, "Marketing & Sales Strategy".toList, ["Body 5.".toList]⟩,
     ⟨"Financial Projections".toList, "Financial Projections".toList, ["Body 6.".toList]⟩,
     ⟨"Risk Analysis".toList, "Risk Analysis".toList, ["Body 7.".toList]⟩,
     ⟨"Implementation Timeline".toList, "Implementation Timeline".toList, ["Body 8.".toList]⟩,
     ⟨"Appendices".toList, "Appendices".toList, ["Body 9.".toList]⟩]
    (by decide) (by decide) (by decide)
  exact ⟨h.1, h.2.1⟩

/-- C6: when the normalized input consists of recognized header blocks in
which some catalog title occurs more than once, the parser emits one
section per occurrence, never merging duplicate titles, and lists all
sections in the order the header lines occur (insertion order). -/
theorem duplicate_headers_not_merged (s : List Char) (bs : List Block)
    (hsplit : (cleanContent s).splitOn '\n' = blocksLines bs)
    (hwf : ∀ b ∈ bs, blockWF b)
    (hdup : ¬ (bs.map Block.title).Nodup) :
    parseBusinessPlanSections s = bs.map blockSection ∧
      (parseBusinessPlanSections s).map BusinessPlanSection.title = bs.map Block.title ∧
      (parseBusinessPlanSections s).length = bs.length := by
  have hne : bs ≠ [] := by
    intro hc
    rw [hc] at hdup
    exact hdup (by simp)
  have hp := parse_blocks hsplit hwf hne
  refine ⟨hp, ?_, ?_⟩
  · rw [hp, List.map_map]
    have : (BusinessPlanSection.title ∘ blockSection) = Block.title := by
      funext b
      rfl
    rw [this]
  · rw [hp, List.length_map]

/-- Witness for C6: `Executive Summary` appears twice, each occurrence
yielding its own section, in insertion order. -/
theorem duplicate_headers_not_merged_witness :
    parseBusinessPlanSections "Executive Summary\nFirst take.\nExecutive Summary\nSecond take.\nMarket Analysis\nStuff.\n".toList =
      [⟨"Executive Summary".toList, "First take.".toList⟩,
       ⟨"Executive Summary".toList, "Second take.".toList⟩,
       ⟨"Market Analysis".toList, "Stuff.".toList⟩] := by
  have h := duplicate_headers_not_merged
    "Executive Summary\nFirst take.\nExecutive Summary\nSecond take.\nMarket Analysis\nStuff.\n".toList
    [⟨"Executive Summary".toList, "Executive Summary".toList, ["First take.".toList]⟩,
     ⟨"Executive Summary".toList, "Executive Summary".toList, ["Second take.".toList]⟩,
     ⟨"Market Analysis".toList, "Market Analysis".toList, ["Stuff.".toList]⟩]
    (by decide) (by decide) (by decide)
  rw [h.1]
  decide

/-- C10 counterexample: with a preamble line followed by a recognized
header line that has no content, the scan emits nothing, so the fallback
section contains the preamble: a line preceding the first recognized
header does appear in a section's content. -/
theorem preheader_lines_discarded_cex :
    ((cleanContent "Intro prose\n1. Executive Summary".toList).splitOn '\n').any
        (fun l => (matchedHeader (jsTrim l)).isSome) = true ∧
    (parseBusinessPlanSections "Intro prose\n1. Executive Summary".toList).any
        (fun sec => containsSub sec.content "Intro prose".toList) = true := by
  decide

/-- C10 (amended): lines preceding the first recognized header are
discarded — the parse result equals the scan of the remaining lines alone —
provided that scan emits at least one section; when it emits none, the
fallback section holds the entire normalized text, preamble included. -/
theorem preheader_lines_discarded (s : List Char) (pre rest : List (List Char))
    (hsplit : (cleanContent s).splitOn '\n' = pre ++ rest)
    (hpre : ∀ l ∈ pre, matchedHeader (jsTrim l) = none)
    (hne : scanLines rest [] [] ≠ []) :
    parseBusinessPlanSections s = scanLines rest [] [] := by
  unfold parseBusinessPlanSections
  rw [hsplit, scanLines_append_content _ _ _ _ hpre, scanLines_empty_sec _ _ []]
  have : (scanLines rest [] []).isEmpty = false := by
    simp [List.isEmpty_iff, hne]
  rw [this]
  simp

/-- Witness for C10 at a concrete input with a preamble line, a header
line and a body line. -/
theorem preheader_lines_discarded_witness :
    parseBusinessPlanSections "Intro prose\n1. Executive Summary\nBody.".toList =
      scanLines ["1. Executive Summary".toList, "Body.".toList] [] [] := by
  exact preheader_lines_discarded
    "Intro prose\n1. Executive Summary\nBody.".toList
    ["Intro prose".toList]
    ["1. Executive Summary".toList, "Body.".toList]
    (by decide) (by decide) (by decide)

/-- C4 counterexample: a document with no sections exports to a flat text
whose re-parse yields the single fallback section, so the re-parsed title
sequence differs from the original (empty) title sequence. -/
theorem export_reparse_titles_cex :
    (parseBusinessPlanSections (formatBusinessPlanForExport
        ⟨"1".toList, "Acme Business Plan".toList, "Retail".toList, "1/2/2026".toList,
          [], PlanStatus.complete⟩)).map BusinessPlanSection.title ≠
      (([] : List BusinessPlanSection).map BusinessPlanSection.title) := by
  decide

/-- C4 (amended): re-parsing the flat-text export reproduces the original
section titles in order for every document with at least one section whose
normalized export splits into a non-header preamble followed by recognized
header blocks titled like the document's sections, each with non-header,
non-blank content lines. -/
theorem export_reparse_preserves_titles (p : GeneratedBusinessPlan)
    (pre : List (List Char)) (bs : List Block)
    (hsplit : (cleanContent (formatBusinessPlanForExport p)).splitOn '\n'
        = pre ++ blocksLines bs)
    (hpre : ∀ l ∈ pre, matchedHeader (jsTrim l) = none)
    (hwf : ∀ b ∈ bs, blockWF b)
    (htitles : bs.map Block.title = p.sections.map BusinessPlanSection.title)
    (hne : bs ≠ []) :
    (parseBusinessPlanSections (formatBusinessPlanForExport p)).map
        BusinessPlanSection.title = p.sections.map BusinessPlanSection.title := by
  unfold parseBusinessPlanSections
  rw [hsplit, scanLines_append_content _ _ _ _ hpre, scanLines_empty_sec _ _ [],
    scanLines_blocks_start bs hwf]
  have hmapne : (bs.map blockSection).isEmpty = false := by
    simp [List.isEmpty_iff, hne]
  rw [hmapne]
  simp only [Bool.false_eq_true, if_false, List.map_map]
  have : (BusinessPlanSection.title ∘ blockSection) = Block.title := by
    funext b
    rfl
  rw [this, htitles]

/-- Witness for C4 at a concrete two-section document. -/
theorem export_reparse_preserves_titles_witness :
    (parseBusinessPlanSections (formatBusinessPlanForExport
        ⟨"1".toList, "Acme Business Plan".toList, "Retail".toList, "1/2/2026".toList,
          [⟨"Executive Summary".toList, "We sell widgets.".toList⟩,
           ⟨"Market Analysis".toList, "Growing market.".toList⟩],
          PlanStatus.complete⟩)).map BusinessPlanSection.title =
      ["Executive Summary".toList, "Market Analysis".toList] := by
  have h := export_reparse_preserves_titles
    ⟨"1".toList, "Acme Business Plan".toList, "Retail".toList, "1/2/2026".toList,
      [⟨"Executive Summary".toList, "We sell widgets.".toList⟩,
       ⟨"Market Analysis".toList, "Growing market.".toList⟩],
      PlanStatus.complete⟩
    ["Acme Business Plan".toList, "Industry: Retail".toList, "Created: 1/2/2026".toList,
      [], List.replicate 50 '=', []]
    [⟨"Executive Summary".toList, "Executive Summary".toList,
       ["-----------------".toList, [], "We sell widgets.".toList, []]⟩,
     ⟨"Market Analysis".toList, "Market Analysis".toList,
       ["---------------".toList, [], "Growing market.".toList]⟩]
    (by decide) (by decide) (by decide) (by decide) (by decide)
  exact h

/-- C5 counterexample: the full normalization pipeline (the one including
header-marker stripping, as applied by the parser to headerless text) is
not idempotent: seven `#` followed by two spaces leaves `"# b"` after one
pass, which a second pass reduces to `"b"`. -/
theorem normalization_not_idempotent_cex :
    normalizeText (normalizeText "#######  b".toList) ≠
      normalizeText "#######  b".toList := by
  decide

theorem bullet_not_ws {c : Char} (h : isBulletChar c = true) : isWs c = false := by
  simp only [isBulletChar, Bool.or_eq_true, beq_iff_eq] at h
  rcases h with h | h <;> subst h <;> rfl

theorem isWs_not_bullet {c : Char} (h : isWs c = true) : isBulletChar c = false := by
  cases hb : isBulletChar c
  · rfl
  · rw [bullet_not_ws hb] at h
    exact absurd h (by simp)

theorem bullet_not_nl {c : Char} (h : isBulletChar c = true) : (c == '\n') = false := by
  simp only [isBulletChar, Bool.or_eq_true, beq_iff_eq] at h
  rcases h with h | h <;> subst h <;> rfl

theorem ws_not_nl_aux {c : Char} (h : isWs c = false) : (c == '\n') = false := by
  cases hb : c == '\n'
  · rfl
  · rw [beq_iff_eq] at hb
    subst hb
    simp [isWs] at h

theorem eGood_mono {a b : Bool} (hab : b = true → a = true) {l : List Char}
    (h : eGood a l) : eGood b l := by
  induction l generalizing a b with
  | nil => trivial
  | cons c t ih =>
    rw [eGood] at h ⊢
    refine ⟨fun hb hc => h.1 (hab hb) hc, ?_⟩
    refine ih (a := (c == '\n' || (a && isWs c))) ?_ h.2
    intro hbb
    rcases Bool.or_eq_true _ _ |>.mp hbb with h1 | h1
    · simp [h1]
    · rcases Bool.and_eq_true _ _ |>.mp h1 with ⟨hb1, hw1⟩
      simp [hab hb1, hw1]

theorem goodLS_append_left {l₁ l₂ : List Char} {s : Bool}
    (h : goodLS s (l₁ ++ l₂)) : goodLS s l₁ := by
  induction l₁ generalizing s with
  | nil => trivial
  | cons c t ih =>
    rw [List.cons_append, goodLS] at h
    exact ⟨h.1, ih h.2⟩

theorem nwc_of_head {c : Char} {X Y : List Char} (hh : X.head? = Y.head?)
    (h : nwc c X) : nwc c Y := by
  cases Y with
  | nil => trivial
  | cons w t =>
    intro hw
    cases X with
    | nil => simp at hh
    | cons x xt =>
      simp only [List.head?] at hh
      injection hh with hh
      subst hh
      exact h hw

theorem eGood_append_left {l₁ l₂ : List Char} {s : Bool}
    (h : eGood s (l₁ ++ l₂)) : eGood s l₁ := by
  induction l₁ generalizing s with
  | nil => trivial
  | cons c t ih =>
    rw [List.cons_append, eGood] at h
    refine ⟨fun hs hc => ?_, ih h.2⟩
    have hn := h.1 hs hc
    cases t with
    | nil => trivial
    | cons w t' => exact nwc_of_head rfl hn

theorem remDS_eq_self {l : List Char} (h : '*' ∉ l) : remDS l = l := by
  induction l with
  | nil => rfl
  | cons c t ih =>
    cases t with
    | nil => rfl
    | cons d u =>
      have hc : ¬(c = '*' ∧ d = '*') := by
        rintro ⟨rfl, _⟩
        exact h (by simp)
      simp only [remDS, if_neg hc]
      rw [ih (fun hm => h (List.mem_cons_of_mem _ hm))]

theorem remStar_eq_self {l : List Char} (h : '*' ∉ l) : remStar l = l := by
  rw [remStar, List.filter_eq_self]
  intro a ha
  simp only [Bool.not_eq_true']
  rw [beq_eq_false_iff_ne]
  rintro rfl
  exact h ha

theorem okRuns_le {p : Nat} {l : List Char} (h : okRuns p l) : p ≤ 2 := by
  induction l generalizing p with
  | nil => exact h
  | cons c t ih =>
    by_cases hc : c = '\n'
    · rw [okRuns, if_pos hc] at h
      have := ih h
      omega
    · rw [okRuns, if_neg hc] at h
      exact h.1

theorem collapseGo_eq_replicate_append {l : List Char} :
    ∀ {p : Nat}, okRuns p l → collapseGo p l = List.replicate p '\n' ++ l := by
  induction l with
  | nil =>
    intro p h
    rw [okRuns] at h
    simp only [collapseGo, nlFlush]
    rw [if_neg (by omega)]
    simp
  | cons c t ih =>
    intro p h
    by_cases hc : c = '\n'
    · subst hc
      rw [okRuns, if_pos rfl] at h
      have h2 : p + 1 ≤ 2 := okRuns_le h
      simp only [collapseGo]
      rw [if_pos (show ('\n' == '\n') = true from rfl)]
      rw [Nat.min_eq_left (by omega)]
      rw [ih h]
      rw [List.replicate_succ']
      simp
    · have hcb : (c == '\n') = false := by
        rw [beq_eq_false_iff_ne]
        exact hc
      rw [okRuns, if_neg hc] at h
      simp only [collapseGo, hcb, Bool.false_eq_true, if_false]
      rw [ih h.2]
      simp only [nlFlush]
      rw [if_neg (by omega)]
      simp

theorem collapseNL_eq_self {l : List Char} (h : okRuns 0 l) : collapseNL l = l := by
  rw [collapseNL, collapseGo_eq_replicate_append h]
  rfl

theorem stripGo_eq_self {l : List Char} : ∀ {s : Bool}, goodLS s l → stripGo s l = l := by
  induction l with
  | nil =>
    intro s _
    rfl
  | cons c t ih =>
    intro s hg
    rw [goodLS] at hg
    have hcond : (s && isWs c) = false := by
      cases s
      · rfl
      · simp [hg.1 rfl]
    simp only [stripGo, hcond, Bool.false_eq_true, if_false]
    rw [ih hg.2]

theorem goodLS_okRuns {l : List Char} :
    ∀ {s : Bool} {p : Nat}, goodLS s l → p ≤ (if s = true then 2 else 1) → okRuns p l := by
  induction l with
  | nil =>
    intro s p _ hp
    rw [okRuns]
    split at hp <;> omega
  | cons c t ih =>
    intro s p hg hp
    rw [goodLS] at hg
    by_cases hc : c = '\n'
    · subst hc
      have hs : s = false := by
        cases s
        · rfl
        · have := hg.1 rfl
          simp [isWs] at this
      subst hs
      rw [if_neg (by simp)] at hp
      rw [okRuns, if_pos rfl]
      refine ih hg.2 ?_
      have hnl : ('\n' == '\n') = true := rfl
      rw [hnl, if_pos (show (true = true) from rfl)]
      omega
    · rw [okRuns, if_neg hc]
      have hp2 : p ≤ 2 := by
        split at hp <;> omega
      refine ⟨hp2, ih hg.2 ?_⟩
      split <;> omega

theorem dropWhile_head_not {p : Char → Bool} : ∀ {l : List Char} {c : Char},
    (l.dropWhile p).head? = some c → p c = false := by
  intro l
  induction l with
  | nil =>
    intro c h
    simp [List.dropWhile] at h
  | cons a t ih =>
    intro c h
    by_cases hp : p a = true
    · rw [List.dropWhile_cons_of_pos hp] at h
      exact ih h
    · rw [List.dropWhile_cons_of_neg hp] at h
      simp only [List.head?_cons, Option.some.injEq] at h
      subst h
      exact Bool.not_eq_true _ ▸ hp

theorem jsTrim_prefix (l : List Char) : jsTrim l <+: jsTrimLeft l := by
  rw [jsTrim, ← List.reverse_suffix, List.reverse_reverse]
  exact List.dropWhile_suffix _

theorem jsTrim_head_not_ws {l : List Char} {c : Char} (h : (jsTrim l).head? = some c) :
    isWs c = false := by
  obtain ⟨t, ht⟩ := jsTrim_prefix l
  have hA : (jsTrimLeft l).head? = some c := by
    rw [← ht]
    cases hj : jsTrim l with
    | nil => rw [hj] at h; simp at h
    | cons a u =>
      rw [hj] at h
      simp only [List.head?_cons, Option.some.injEq] at h
      subst h
      simp
  exact dropWhile_head_not hA

theorem jsTrim_rev_head_not_ws {l : List Char} {c : Char}
    (h : (jsTrim l).reverse.head? = some c) : isWs c = false := by
  rw [jsTrim, List.reverse_reverse] at h
  exact dropWhile_head_not h

theorem jsTrimLeft_eq_self {l : List Char}
    (h : ∀ c, l.head? = some c → isWs c = false) : jsTrimLeft l = l := by
  cases l with
  | nil => rfl
  | cons a t =>
    exact List.dropWhile_cons_of_neg (by simp [h a rfl])

theorem jsTrim_eq_self {l : List Char}
    (h1 : ∀ c, l.head? = some c → isWs c = false)
    (h2 : ∀ c, l.reverse.head? = some c → isWs c = false) : jsTrim l = l := by
  rw [jsTrim, jsTrimLeft_eq_self h1]
  rw [show List.dropWhile (fun c => isWs c) l.reverse = l.reverse from
    jsTrimLeft_eq_self h2]
  exact List.reverse_reverse l

theorem jsTrim_idem (l : List Char) : jsTrim (jsTrim l) = jsTrim l :=
  jsTrim_eq_self (fun _ h => jsTrim_head_not_ws h) (fun _ h => jsTrim_rev_head_not_ws h)

theorem goodLS_jsTrim {X : List Char} (h : goodLS true X) : goodLS true (jsTrim X) := by
  have hL : jsTrimLeft X = X := by
    cases X with
    | nil => rfl
    | cons a t =>
      rw [goodLS] at h
      exact List.dropWhile_cons_of_neg (by simp [h.1 rfl])
  obtain ⟨t, ht⟩ := jsTrim_prefix X
  rw [hL] at ht
  rw [← ht] at h
  exact goodLS_append_left h

theorem eGood_jsTrim {X : List Char} (hg : goodLS true X) (h : eGood true X) :
    eGood true (jsTrim X) := by
  have hL : jsTrimLeft X = X := by
    cases X with
    | nil => rfl
    | cons a t =>
      rw [goodLS] at hg
      exact List.dropWhile_cons_of_neg (by simp [hg.1 rfl])
  obtain ⟨t, ht⟩ := jsTrim_prefix X
  rw [hL] at ht
  rw [← ht] at h
  exact eGood_append_left h

theorem goodLS_stripGo : ∀ (l : List Char) (s : Bool), goodLS s (stripGo s l) := by
  intro l
  induction l with
  | nil =>
    intro s
    trivial
  | cons c t ih =>
    intro s
    by_cases hc : (s && isWs c) = true
    · rw [show stripGo s (c :: t) = stripGo true t from by simp [stripGo, hc]]
      have hs : s = true := (Bool.and_eq_true _ _ |>.mp hc).1
      rw [hs]
      exact ih true
    · rw [Bool.not_eq_true] at hc
      rw [show stripGo s (c :: t) = c :: stripGo (c == '\n') t from by simp [stripGo, hc]]
      rw [goodLS]
      refine ⟨fun hs => ?_, ih (c == '\n')⟩
      rw [hs] at hc
      simpa using hc

theorem jsTrim_subset {c : Char} {l : List Char} (h : c ∈ jsTrim l) : c ∈ l := by
  rw [jsTrim, List.mem_reverse] at h
  have h2 := (List.dropWhile_sublist _).subset h
  rw [List.mem_reverse] at h2
  exact (List.dropWhile_sublist _).subset h2

theorem stripGo_subset {c : Char} : ∀ {l : List Char} {s : Bool}, c ∈ stripGo s l → c ∈ l := by
  intro l
  induction l with
  | nil =>
    intro s h
    simp [stripGo] at h
  | cons a t ih =>
    intro s h
    by_cases hc : (s && isWs a) = true
    · rw [show stripGo s (a :: t) = stripGo true t from by simp [stripGo, hc]] at h
      exact List.mem_cons_of_mem _ (ih h)
    · rw [Bool.not_eq_true] at hc
      rw [show stripGo s (a :: t) = a :: stripGo (a == '\n') t from by simp [stripGo, hc]] at h
      rcases List.mem_cons.mp h with h | h
      · simp [h]
      · exact List.mem_cons_of_mem _ (ih h)

theorem collapseGo_mem {c : Char} (hc : c ≠ '\n') :
    ∀ {l : List Char} {p : Nat}, c ∈ collapseGo p l → c ∈ l := by
  intro l
  induction l with
  | nil =>
    intro p h
    simp only [collapseGo, nlFlush] at h
    exact absurd (List.mem_replicate.mp h).2 hc
  | cons a t ih =>
    intro p h
    by_cases ha : (a == '\n') = true
    · rw [show collapseGo p (a :: t) = collapseGo (min (p + 1) 3) t from by
        simp only [collapseGo, ha, if_true]] at h
      exact List.mem_cons_of_mem _ (ih h)
    · rw [show collapseGo p (a :: t) = nlFlush p ++ a :: collapseGo 0 t from by
        simp only [collapseGo, ha, Bool.false_eq_true, if_false]] at h
      rcases List.mem_append.mp h with h | h
      · exact absurd (List.mem_replicate.mp h).2 hc
      · rcases List.mem_cons.mp h with h | h
        · simp [h]
        · exact List.mem_cons_of_mem _ (ih h)

theorem bulletGo_mem {c : Char} (h1 : c ≠ '•') (h2 : c ≠ ' ') :
    ∀ (l : List Char) (st : BulletState), c ∈ bulletGo st l → c ∈ l ∨ c ∈ stChars st := by
  intro l
  induction l with
  | nil =>
    intro st h
    cases st with
    | scan s => simp [bulletGo] at h
    | run r => exact Or.inr h
    | cand r b => exact Or.inr h
  | cons a t ih =>
    intro st h
    cases st with
    | scan s =>
      by_cases hws : (s && isWs a) = true
      · rw [show bulletGo (.scan s) (a :: t) = bulletGo (.run [a]) t from by
          simp [bulletGo, hws]] at h
        rcases ih (.run [a]) h with h | h
        · exact Or.inl (List.mem_cons_of_mem _ h)
        · simp only [stChars, List.mem_singleton] at h
          exact Or.inl (by simp [h])
      · by_cases hsb : (s && isBulletChar a) = true
        · rw [show bulletGo (.scan s) (a :: t) = bulletGo (.cand [] a) t from by
            simp [bulletGo, hws, hsb]] at h
          rcases ih (.cand [] a) h with h | h
          · exact Or.inl (List.mem_cons_of_mem _ h)
          · simp only [stChars, List.nil_append, List.mem_singleton] at h
            exact Or.inl (by simp [h])
        · rw [show bulletGo (.scan s) (a :: t) = a :: bulletGo (.scan (a == '\n')) t from by
            simp [bulletGo, hws, hsb]] at h
          rcases List.mem_cons.mp h with h | h
          · exact Or.inl (by simp [h])
          · rcases ih _ h with h | h
            · exact Or.inl (List.mem_cons_of_mem _ h)
            · simp [stChars] at h
    | run r =>
      by_cases hws : isWs a = true
      · rw [show bulletGo (.run r) (a :: t) = bulletGo (.run (r ++ [a])) t from by
          simp [bulletGo, hws]] at h
        rcases ih (.run (r ++ [a])) h with h | h
        · exact Or.inl (List.mem_cons_of_mem _ h)
        · simp only [stChars, List.mem_append, List.mem_singleton] at h
          rcases h with h | h
          · exact Or.inr h
          · exact Or.inl (by simp [h])
      · by_cases hb : isBulletChar a = true
        · rw [show bulletGo (.run r) (a :: t) = bulletGo (.cand r a) t from by
            simp [bulletGo, hws, hb]] at h
          rcases ih (.cand r a) h with h | h
          · exact Or.inl (List.mem_cons_of_mem _ h)
          · simp only [stChars, List.mem_append, List.mem_singleton] at h
            rcases h with h | h
            · exact Or.inr h
            · exact Or.inl (by simp [h])
        · rw [show bulletGo (.run r) (a :: t) = r ++ a :: bulletGo (.scan (a == '\n')) t from by
            simp [bulletGo, hws, hb]] at h
          rcases List.mem_append.mp h with h | h
          · exact Or.inr h
          · rcases List.mem_cons.mp h with h | h
            · exact Or.inl (by simp [h])
            · rcases ih _ h with h | h
              · exact Or.inl (List.mem_cons_of_mem _ h)
              · simp [stChars] at h
    | cand r b =>
      by_cases hws : isWs a = true
      · rw [show bulletGo (.cand r b) (a :: t) = '•' :: ' ' :: bulletGo (.scan (a == '\n')) t from by
          simp [bulletGo, hws]] at h
        rcases List.mem_cons.mp h with h | h
        · exact absurd h h1
        · rcases List.mem_cons.mp h with h | h
          · exact absurd h h2
          · rcases ih _ h with h | h
            · exact Or.inl (List.mem_cons_of_mem _ h)
            · simp [stChars] at h
      · rw [show bulletGo (.cand r b) (a :: t) = r ++ b :: a :: bulletGo (.scan (a == '\n')) t from by
          simp [bulletGo, hws]] at h
        rcases List.mem_append.mp h with h | h
        · exact Or.inr (by simp [stChars, h])
        · rcases List.mem_cons.mp h with h | h
          · exact Or.inr (by simp [stChars, h])
          · rcases List.mem_cons.mp h with h | h
            · exact Or.inl (by simp [h])
            · rcases ih _ h with h | h
              · exact Or.inl (List.mem_cons_of_mem _ h)
              · simp [stChars] at h

theorem fsc_no_star (l : List Char) : '*' ∉ formatSectionContent l := by
  intro hm
  rw [formatSectionContent] at hm
  have h1 := jsTrim_subset hm
  rw [stripLS] at h1
  have h2 := stripGo_subset h1
  rw [collapseNL] at h2
  have h3 := collapseGo_mem (by decide) h2
  rw [bulletNorm] at h3
  rcases bulletGo_mem (by decide) (by decide) _ _ h3 with h4 | h4
  · rw [remStar] at h4
    have := List.of_mem_filter h4
    simp at this
  · simp [stChars] at h4

theorem eGood_ws_append {r : List Char} (hr : ∀ x ∈ r, isWs x = true) {X : List Char}
    (h : eGood true X) : eGood true (r ++ X) := by
  induction r with
  | nil => simpa
  | cons a rt ih =>
    have ha := hr a (by simp)
    rw [List.cons_append, eGood]
    constructor
    · intro _ hb
      rw [isWs_not_bullet ha] at hb
      cases hb
    · rw [show (a == '\n' || (true && isWs a)) = true from by simp [ha]]
      exact ih (fun x hx => hr x (by simp [hx]))

theorem eGood_replicate_nl : ∀ (k : Nat) (e : Bool), eGood e (List.replicate k '\n') := by
  intro k
  induction k with
  | zero =>
    intro e
    trivial
  | succ n ih =>
    intro e
    rw [List.replicate_succ, eGood]
    constructor
    · intro _ hb
      simp [isBulletChar] at hb
    · rw [show (('\n' == '\n') || (e && isWs '\n')) = true from by simp]
      exact ih true

theorem eGood_replicate_nl_append {X : List Char} (h : eGood true X) :
    ∀ k, eGood true (List.replicate k '\n' ++ X) := by
  intro k
  induction k with
  | zero => simpa
  | succ n ih =>
    rw [List.replicate_succ, List.cons_append, eGood]
    constructor
    · intro _ hb
      simp [isBulletChar] at hb
    · rw [show (('\n' == '\n') || (true && isWs '\n')) = true from by simp]
      exact ih

theorem eGood_bulletGo : ∀ (l : List Char) (st : BulletState), stInvB st →
    eGood (stFlagB st) (bulletGo st l) := by
  intro l
  induction l with
  | nil =>
    intro st hst
    cases st with
    | scan s => trivial
    | run r => simpa using eGood_ws_append hst (show eGood true [] from trivial)
    | cand r b =>
      refine eGood_ws_append hst.1 ?_
      rw [eGood]
      exact ⟨fun _ _ => trivial, trivial⟩
  | cons a t ih =>
    intro st hst
    cases st with
    | scan s =>
      by_cases hws : (s && isWs a) = true
      · rw [show bulletGo (.scan s) (a :: t) = bulletGo (.run [a]) t from by
          simp [bulletGo, hws]]
        have hs : s = true := (Bool.and_eq_true _ _ |>.mp hws).1
        have hwa : isWs a = true := (Bool.and_eq_true _ _ |>.mp hws).2
        rw [show stFlagB (.scan s) = true from by rw [hs]; rfl]
        exact ih (.run [a]) (by intro x hx; simp at hx; subst hx; exact hwa)
      · have hws' : (s && isWs a) = false := by rwa [Bool.not_eq_true] at hws
        by_cases hsb : (s && isBulletChar a) = true
        · rw [show bulletGo (.scan s) (a :: t) = bulletGo (.cand [] a) t from by
            simp [bulletGo, hws', hsb]]
          have hs : s = true := (Bool.and_eq_true _ _ |>.mp hsb).1
          rw [show stFlagB (.scan s) = true from by rw [hs]; rfl]
          exact ih (.cand [] a) ⟨by simp, (Bool.and_eq_true _ _ |>.mp hsb).2⟩
        · have hsb' : (s && isBulletChar a) = false := by rwa [Bool.not_eq_true] at hsb
          rw [show bulletGo (.scan s) (a :: t) = a :: bulletGo (.scan (a == '\n')) t from by
            simp [bulletGo, hws', hsb']]
          rw [show stFlagB (.scan s) = s from rfl]
          rw [eGood]
          constructor
          · intro hsT hb
            rw [hsT, hb] at hsb'
            simp at hsb'
          · rw [show (a == '\n' || (s && isWs a)) = (a == '\n') from by
              rw [hws', Bool.or_false]]
            exact ih (.scan (a == '\n')) trivial
    | run r =>
      by_cases hws : isWs a = true
      · rw [show bulletGo (.run r) (a :: t) = bulletGo (.run (r ++ [a])) t from by
          simp [bulletGo, hws]]
        rw [show stFlagB (BulletState.run r) = true from rfl]
        refine ih (.run (r ++ [a])) ?_
        intro x hx
        rcases List.mem_append.mp hx with hx | hx
        · exact hst x hx
        · simp at hx
          subst hx
          exact hws
      · have hws' : isWs a = false := by rwa [Bool.not_eq_true] at hws
        by_cases hb : isBulletChar a = true
        · rw [show bulletGo (.run r) (a :: t) = bulletGo (.cand r a) t from by
            simp [bulletGo, hws', hb]]
          rw [show stFlagB (BulletState.run r) = true from rfl]
          exact ih (.cand r a)
            (show (∀ x ∈ r, isWs x = true) ∧ isBulletChar a = true from ⟨hst, hb⟩)
        · have hb' : isBulletChar a = false := by rwa [Bool.not_eq_true] at hb
          rw [show bulletGo (.run r) (a :: t) = r ++ a :: bulletGo (.scan (a == '\n')) t from by
            simp [bulletGo, hws', hb']]
          rw [show stFlagB (BulletState.run r) = true from rfl]
          refine eGood_ws_append hst ?_
          rw [eGood]
          constructor
          · intro _ hba
            rw [hb'] at hba
            cases hba
          · rw [show (a == '\n' || (true && isWs a)) = (a == '\n') from by
              rw [hws']; simp]
            exact ih (.scan (a == '\n')) trivial
    | cand r b =>
      rw [show stFlagB (BulletState.cand r b) = true from rfl]
      by_cases hws : isWs a = true
      · rw [show bulletGo (.cand r b) (a :: t) =
            '•' :: ' ' :: bulletGo (.scan (a == '\n')) t from by simp [bulletGo, hws]]
        rw [eGood]
        constructor
        · intro _ _
          rw [nwc]
          intro _
          exact ⟨rfl, rfl⟩
        · rw [show (('•' == '\n') || (true && isWs '•')) = false from rfl]
          rw [eGood]
          constructor
          · intro hf
            cases hf
          · rw [show ((' ' == '\n') || (false && isWs ' ')) = false from rfl]
            exact eGood_mono (fun hf => by cases hf) (ih (.scan (a == '\n')) trivial)
      · have hws' : isWs a = false := by rwa [Bool.not_eq_true] at hws
        rw [show bulletGo (.cand r b) (a :: t) =
            r ++ b :: a :: bulletGo (.scan (a == '\n')) t from by simp [bulletGo, hws']]
        refine eGood_ws_append hst.1 ?_
        rw [eGood]
        constructor
        · intro _ _
          rw [nwc]
          intro hwa
          rw [hws'] at hwa
          cases hwa
        · rw [show ((b == '\n') || (true && isWs b)) = false from by
            rw [bullet_not_nl hst.2, bullet_not_ws hst.2]; rfl]
          rw [eGood]
          constructor
          · intro hf
            cases hf
          · rw [show ((a == '\n') || (false && isWs a)) = (a == '\n') from by simp]
            exact ih (.scan (a == '\n')) trivial

theorem collapseGo_head_nz : ∀ {l : List Char} {p : Nat}, p ≠ 0 →
    (collapseGo p l).head? = some '\n' := by
  intro l
  induction l with
  | nil =>
    intro p hp
    simp only [collapseGo, nlFlush]
    split
    · rfl
    · cases p with
      | zero => exact absurd rfl hp
      | succ n => rfl
  | cons a t ih =>
    intro p hp
    by_cases ha : (a == '\n') = true
    · rw [show collapseGo p (a :: t) = collapseGo (min (p + 1) 3) t from by
        simp [collapseGo, ha]]
      refine ih ?_
      intro hmin
      rcases Nat.min_eq_zero_iff.mp hmin with h | h
      · omega
      · omega
    · have ha' : (a == '\n') = false := by rwa [Bool.not_eq_true] at ha
      rw [show collapseGo p (a :: t) = nlFlush p ++ a :: collapseGo 0 t from by
        simp [collapseGo, ha']]
      simp only [nlFlush]
      split
      · rfl
      · cases p with
        | zero => exact absurd rfl hp
        | succ n => rfl

theorem collapseGo_head_zero (l : List Char) : (collapseGo 0 l).head? = l.head? := by
  cases l with
  | nil => rfl
  | cons a t =>
    by_cases ha : (a == '\n') = true
    · rw [show collapseGo 0 (a :: t) = collapseGo (min 1 3) t from by
        simp [collapseGo, ha]]
      rw [collapseGo_head_nz (by simp)]
      rw [beq_iff_eq] at ha
      rw [ha]
      rfl
    · have ha' : (a == '\n') = false := by rwa [Bool.not_eq_true] at ha
      rw [show collapseGo 0 (a :: t) = nlFlush 0 ++ a :: collapseGo 0 t from by
        simp [collapseGo, ha']]
      rfl

theorem eGood_collapseGo {l : List Char} :
    ∀ {p : Nat} {e : Bool}, (p ≠ 0 → e = true) → eGood e l → eGood e (collapseGo p l) := by
  induction l with
  | nil =>
    intro p e _ _
    simp only [collapseGo, nlFlush]
    exact eGood_replicate_nl _ e
  | cons a t ih =>
    intro p e hpe he
    rw [eGood] at he
    by_cases ha : (a == '\n') = true
    · rw [show collapseGo p (a :: t) = collapseGo (min (p + 1) 3) t from by
        simp [collapseGo, ha]]
      have ht : eGood true t := by
        have h2 := he.2
        rw [show (a == '\n' || (e && isWs a)) = true from by rw [ha]; rfl] at h2
        exact h2
      exact eGood_mono (fun _ => rfl) (ih (fun _ => rfl) ht)
    · have ha' : (a == '\n') = false := by rwa [Bool.not_eq_true] at ha
      rw [show collapseGo p (a :: t) = nlFlush p ++ a :: collapseGo 0 t from by
        simp [collapseGo, ha']]
      have hef : eGood (e && isWs a) t := by
        have h2 := he.2
        rw [show (a == '\n' || (e && isWs a)) = (e && isWs a) from by
          rw [ha', Bool.false_or]] at h2
        exact h2
      have htail : eGood e (a :: collapseGo 0 t) := by
        rw [eGood]
        constructor
        · intro hsT hb
          exact nwc_of_head (collapseGo_head_zero t).symm (he.1 hsT hb)
        · rw [show (a == '\n' || (e && isWs a)) = (e && isWs a) from by
            rw [ha', Bool.false_or]]
          exact ih (fun h => absurd rfl h) hef
      cases hp : p with
      | zero => simpa [nlFlush] using htail
      | succ n =>
        have he' : e = true := hpe (by simp [hp])
        subst he'
        simp only [nlFlush]
        exact eGood_replicate_nl_append htail _

theorem stripGo_head_false (t : List Char) : (stripGo false t).head? = t.head? := by
  cases t with
  | nil => rfl
  | cons a u =>
    rw [show stripGo false (a :: u) = a :: stripGo (a == '\n') u from by simp [stripGo]]
    rfl

theorem eGood_stripGo {l : List Char} : ∀ {e : Bool}, eGood e l → eGood e (stripGo e l) := by
  induction l with
  | nil =>
    intro e _
    trivial
  | cons a t ih =>
    intro e he
    rw [eGood] at he
    by_cases hc : (e && isWs a) = true
    · rw [show stripGo e (a :: t) = stripGo true t from by simp [stripGo, hc]]
      have hee : e = true := (Bool.and_eq_true _ _ |>.mp hc).1
      have ht : eGood true t := by
        have h2 := he.2
        rw [show (a == '\n' || (e && isWs a)) = true from by rw [hc]; simp] at h2
        exact h2
      rw [hee]
      exact ih ht
    · have hc' : (e && isWs a) = false := by rwa [Bool.not_eq_true] at hc
      rw [show stripGo e (a :: t) = a :: stripGo (a == '\n') t from by simp [stripGo, hc']]
      rw [eGood]
      constructor
      · intro hsT hb
        have hbn : (a == '\n') = false := bullet_not_nl hb
        rw [hbn]
        exact nwc_of_head (stripGo_head_false t).symm (he.1 hsT hb)
      · rw [show (a == '\n' || (e && isWs a)) = (a == '\n') from by
          rw [hc', Bool.or_false]]
        have h2 := he.2
        rw [show (a == '\n' || (e && isWs a)) = (a == '\n') from by
          rw [hc', Bool.or_false]] at h2
        exact ih h2

theorem bulletGo_eq_self : ∀ {l : List Char} {s : Bool},
    goodLS s l → eGood s l → bulletGo (.scan s) l = l := by
  intro l
  induction l with
  | nil =>
    intro s _ _
    rfl
  | cons c t ih =>
    intro s hg he
    rw [goodLS] at hg
    rw [eGood] at he
    have hws : (s && isWs c) = false := by
      cases s
      · rfl
      · simp [hg.1 rfl]
    by_cases hsb : (s && isBulletChar c) = true
    · have hs : s = true := (Bool.and_eq_true _ _ |>.mp hsb).1
      have hbc : isBulletChar c = true := (Bool.and_eq_true _ _ |>.mp hsb).2
      have hcn : (c == '\n') = false := bullet_not_nl hbc
      have hg2 : goodLS false t := by
        have h2 := hg.2
        rwa [hcn] at h2
      have he2 : eGood false t := by
        have h2 := he.2
        rw [hcn, hws, Bool.or_false] at h2
        exact h2
      rw [show bulletGo (.scan s) (c :: t) = bulletGo (.cand [] c) t from by
        simp [bulletGo, hws, hsb]]
      cases t with
      | nil => rfl
      | cons w t' =>
        have hext : bulletGo (.scan false) (w :: t') = w :: t' := ih hg2 he2
        have hmach : bulletGo (.scan false) (w :: t') =
            w :: bulletGo (.scan (w == '\n')) t' := by
          simp [bulletGo]
        rw [hmach] at hext
        have hw_extract : bulletGo (.scan (w == '\n')) t' = t' :=
          (List.cons.injEq _ _ _ _ |>.mp hext).2
        by_cases hw : isWs w = true
        · have hcanon := he.1 hs hbc
          rw [nwc] at hcanon
          obtain ⟨hc1, hw1⟩ := hcanon hw
          subst hc1
          subst hw1
          rw [show bulletGo (.cand [] '•') (' ' :: t') =
              '•' :: ' ' :: bulletGo (.scan (' ' == '\n')) t' from by
            simp [bulletGo, isWs]]
          rw [hw_extract]
        · have hw' : isWs w = false := by rwa [Bool.not_eq_true] at hw
          rw [show bulletGo (.cand [] c) (w :: t') =
              [] ++ c :: w :: bulletGo (.scan (w == '\n')) t' from by
            simp [bulletGo, hw']]
          rw [hw_extract]
          rfl
    · have hsb' : (s && isBulletChar c) = false := by rwa [Bool.not_eq_true] at hsb
      have he2 : eGood (c == '\n') t := by
        have h2 := he.2
        rw [hws, Bool.or_false] at h2
        exact h2
      rw [show bulletGo (.scan s) (c :: t) = c :: bulletGo (.scan (c == '\n')) t from by
        simp [bulletGo, hws, hsb']]
      rw [ih hg.2 he2]

theorem fsc_goodLS (l : List Char) : goodLS true (formatSectionContent l) := by
  rw [formatSectionContent, stripLS]
  exact goodLS_jsTrim (goodLS_stripGo _ true)

theorem fsc_eGood (l : List Char) : eGood true (formatSectionContent l) := by
  rw [formatSectionContent, stripLS]
  refine eGood_jsTrim (goodLS_stripGo _ true) ?_
  rw [collapseNL, bulletNorm]
  exact eGood_stripGo (eGood_collapseGo (fun h => absurd rfl h)
    (eGood_bulletGo _ (.scan true) trivial))

/-- C5 (amended): the section-content normalization `formatSectionContent`
(strip emphasis markers, canonicalize bullet markers, collapse 3+ line
breaks, strip per-line leading whitespace, trim) is idempotent on every
input; the full pipeline including header-marker stripping is not (see the
counterexample). -/
theorem formatSectionContent_idem (l : List Char) :
    formatSectionContent (formatSectionContent l) = formatSectionContent l := by
  have hg := fsc_goodLS l
  have he := fsc_eGood l
  have hns := fsc_no_star l
  conv_lhs => rw [formatSectionContent]
  rw [remDS_eq_self hns, remStar_eq_self hns, bulletNorm, bulletGo_eq_self hg he,
    collapseNL_eq_self (goodLS_okRuns hg (by simp)), stripLS, stripGo_eq_self hg]
  rw [formatSectionContent]
  exact jsTrim_idem _

end BizGenius
